import Mathlib

/-!
Verification of the yendor.ts turn scheduler (`src/yendor/scheduler.ts`).

The scheduler owns a `BinaryHeap<TimedEntity>` keyed by `waitTime`.  The heap
implementation itself is not part of the inspected sources, so it is modelled
from the specification (standard binary min-heap over a dense array: sift-up
on insert, swap-with-last then sift-down on pop, rank-indexed peek).  The
scheduler code is translated statement by statement from `Scheduler.run`,
`pause`, `resume`, `isPaused`, `add`, `addAll`, `remove` and `clear`.

A `TimedEntity` in the source is a mutable object with a numeric `waitTime`
and an `update()` method that rewrites its own `waitTime`.  In the shallow
embedding an entity is a value carrying an identity tag `id` and its current
`waitTime`; the behaviour of all `update()` methods is one parameter
`upd : Nat → Int → Int` mapping an entity's id and its `waitTime` at the
moment `update()` is invoked to the `waitTime` that `update()` leaves behind.
`run` additionally returns the list of activation events (one per `update()`
invocation, in invocation order) so that temporal claims can be stated.
-/

namespace Yendor

/-- A timed entity: identity tag plus current wait time (mirrors the mutable
`waitTime: number` property of the `TimedEntity` interface). -/
structure TimedEntity where
  id : Nat
  waitTime : Int
deriving DecidableEq, Repr

/-- Modelled from the spec: the generic `BinaryHeap` used by the scheduler is
not among the inspected sources.  Per §4.1 it is a "standard binary min-heap
over a dense array", keyed by an extractor function; the scheduler
instantiates the extractor with `entity.waitTime`, which is inlined here as
`BinaryHeap.key`. -/
structure BinaryHeap where
  data : List TimedEntity
deriving DecidableEq, Repr

namespace BinaryHeap

/-- The key extractor the scheduler passes to its heap: `e => e.waitTime`. -/
def key (e : TimedEntity) : Int := e.waitTime

/-- Exchange the elements at positions `i` and `j` (a no-op if either index
is out of range).  Both sift operations are sequences of such exchanges. -/
def hswap (l : List TimedEntity) (i j : Nat) : List TimedEntity :=
  match l[i]?, l[j]? with
  | some a, some b => (l.set i b).set j a
  | _, _ => l

/-- Modelled from the spec: sift-up after insertion — while the element at
position `i` has a strictly smaller key than its parent at `(i-1)/2`, swap
them and continue from the parent.  The first argument is recursion fuel;
the sift position strictly decreases, so any fuel ≥ the starting position
computes the full sift. -/
def siftUpF : Nat → List TimedEntity → Nat → List TimedEntity
  | 0, l, _ => l
  | _ + 1, l, 0 => l
  | fuel + 1, l, i + 1 =>
    match l[i / 2]?, l[i + 1]? with
    | some p, some c =>
      if key c < key p then siftUpF fuel (hswap l (i / 2) (i + 1)) (i / 2) else l
    | _, _ => l

/-- Sift-up with enough fuel for any in-range start position. -/
def siftUp (l : List TimedEntity) (i : Nat) : List TimedEntity :=
  siftUpF l.length l i

/-- Modelled from the spec: `push(element)` inserts at the end of the dense
array and sifts up. -/
def push (h : BinaryHeap) (e : TimedEntity) : BinaryHeap :=
  ⟨siftUp (h.data ++ [e]) h.data.length⟩

/-- Modelled from the spec: `pushAll(elements)` is equivalent to repeated
`push`, preserving insertion order. -/
def pushAll (h : BinaryHeap) (es : List TimedEntity) : BinaryHeap :=
  es.foldl push h

/-- Modelled from the spec: sift-down — pick the child of `i` with the
smaller key; if its key is strictly smaller than the key at `i`, swap and
continue from that child.  The sift position at least doubles each step, so
any fuel ≥ `l.length` computes the full sift. -/
def siftDownF : Nat → List TimedEntity → Nat → List TimedEntity
  | 0, l, _ => l
  | fuel + 1, l, i =>
    match l[i]?, l[2 * i + 1]?, l[2 * i + 2]? with
    | some cur, some c1, some c2 =>
      if key c2 < key c1 then
        if key c2 < key cur then siftDownF fuel (hswap l i (2 * i + 2)) (2 * i + 2)
        else l
      else
        if key c1 < key cur then siftDownF fuel (hswap l i (2 * i + 1)) (2 * i + 1)
        else l
    | some cur, some c1, none =>
      if key c1 < key cur then siftDownF fuel (hswap l i (2 * i + 1)) (2 * i + 1)
      else l
    | _, _, _ => l

/-- Sift-down with enough fuel for any start position. -/
def siftDown (l : List TimedEntity) (i : Nat) : List TimedEntity :=
  siftDownF l.length l i

/-- Source `peek()`: the minimum-key element (the root of the heap), `none` when
empty. -/
def peek (h : BinaryHeap) : Option TimedEntity := h.data[0]?

/-- Source `peek(index)`: rank-indexed read of the dense array, used by the
scheduler's bulk decrement. -/
def peekAt (h : BinaryHeap) (i : Nat) : Option TimedEntity := h.data[i]?

/-- Source `size()`. -/
def size (h : BinaryHeap) : Nat := h.data.length

/-- Source `isEmpty()`. -/
def isEmpty (h : BinaryHeap) : Bool := h.data.isEmpty

/-- Modelled from the spec: `pop()` removes the root, moves the last array
element to the root and sifts down.  (The popped value itself is read by the
scheduler through `peek` before popping, so only the state change is
modelled.) -/
def pop (h : BinaryHeap) : BinaryHeap :=
  match h.data.getLast? with
  | none => h
  | some last =>
    let l := h.data.dropLast
    if l.isEmpty then ⟨[]⟩ else ⟨siftDown (l.set 0 last) 0⟩

/-- Modelled from the spec: `remove(element)` removes by identity wherever
the element resides — swap with the last array element, shrink, then sift;
a no-op when the element is absent. -/
def remove (h : BinaryHeap) (e : TimedEntity) : BinaryHeap :=
  match h.data.findIdx? (fun x => x == e) with
  | none => h
  | some i =>
    match h.data.getLast? with
    | none => h
    | some last =>
      let l := h.data.dropLast
      if i = l.length then ⟨l⟩ else ⟨siftDown (l.set i last) i⟩

/-- Source `clear()`. -/
def clear (_h : BinaryHeap) : BinaryHeap := ⟨[]⟩

/-- The key stored at position `j` of the dense array. -/
def keyAt (l : List TimedEntity) (j : Nat) (h : j < l.length) : Int :=
  key (l.get ⟨j, h⟩)

/-- The binary min-heap invariant of the dense array: every non-root node's
key is at least its parent's key (the parent of position `j` is
`(j - 1) / 2`). -/
def heapProp (l : List TimedEntity) : Prop :=
  ∀ j (hj : j < l.length), 0 < j → keyAt l ((j - 1) / 2) (by omega) ≤ keyAt l j hj

instance (l : List TimedEntity) : Decidable (heapProp l) :=
  inferInstanceAs (Decidable
    (∀ j (hj : j < l.length), 0 < j → keyAt l ((j - 1) / 2) (by omega) ≤ keyAt l j hj))

/-- The heap invariant with the two edges out of position `i` exempted: the
intermediate state of a sift-down whose "hole" is at `i`. -/
def heapPropExcept (l : List TimedEntity) (i : Nat) : Prop :=
  ∀ j (hj : j < l.length), 0 < j → (j - 1) / 2 ≠ i →
    keyAt l ((j - 1) / 2) (by omega) ≤ keyAt l j hj

/-- Second sift-down invariant: when the hole `i` is not the root, the
hole's parent already dominates the hole's children. -/
def gpBound (l : List TimedEntity) (i : Nat) : Prop :=
  ∀ j (hj : j < l.length), 0 < i → (j - 1) / 2 = i →
    ∀ hp : (i - 1) / 2 < l.length, keyAt l ((i - 1) / 2) hp ≤ keyAt l j hj

end BinaryHeap

/-- One activation during `run()`: the entity popped, its `waitTime` at the
moment `update()` was invoked (`oldWaitTime`, read after the bulk decrement
and the pop, at line 81 of scheduler.ts), the value `update()` set
(`newWaitTime`), and the value after the anti-deadlock correction of lines
83–86 (`finalWaitTime`). -/
structure ActEvent where
  id : Nat
  oldWaitTime : Int
  newWaitTime : Int
  finalWaitTime : Int
deriving DecidableEq, Repr

/-- The entity as it was at the instant it was popped from the heap. -/
def ActEvent.popped (ev : ActEvent) : TimedEntity := ⟨ev.id, ev.oldWaitTime⟩

/-- The entity as it is re-inserted after `update()` and the correction. -/
def ActEvent.reinserted (ev : ActEvent) : TimedEntity := ⟨ev.id, ev.finalWaitTime⟩

/-- The scheduler: one `BinaryHeap` of timed entities plus the `paused`
flag (initialised to `false` by the constructor). -/
structure Scheduler where
  entities : BinaryHeap
  paused : Bool
deriving DecidableEq, Repr

namespace Scheduler

/-- A freshly constructed scheduler: empty heap, not paused. -/
def empty : Scheduler := ⟨⟨[]⟩, false⟩

/-- Source `add(entity)`. -/
def add (s : Scheduler) (e : TimedEntity) : Scheduler :=
  { s with entities := s.entities.push e }

/-- Source `addAll(entities)`. -/
def addAll (s : Scheduler) (es : List TimedEntity) : Scheduler :=
  { s with entities := s.entities.pushAll es }

/-- Source `remove(entity)`. -/
def remove (s : Scheduler) (e : TimedEntity) : Scheduler :=
  { s with entities := s.entities.remove e }

/-- Source `clear()`. -/
def clear (s : Scheduler) : Scheduler :=
  { s with entities := s.entities.clear }

/-- Source `pause()`. -/
def pause (s : Scheduler) : Scheduler := { s with paused := true }

/-- Source `resume()`. -/
def resume (s : Scheduler) : Scheduler := { s with paused := false }

/-- Source `isPaused()`. -/
def isPaused (s : Scheduler) : Bool := s.paused

/-- Lines 68–74 of `Scheduler.run`: read `elapsed = peek().waitTime` and, if
`elapsed > 0`, subtract it from every entity's `waitTime` via rank-indexed
peek (a map over the dense array, leaving array order unchanged). -/
def decrementAll (h : BinaryHeap) : BinaryHeap :=
  match h.peek with
  | none => h
  | some top =>
    if top.waitTime > 0 then
      ⟨h.data.map (fun e => { e with waitTime := e.waitTime - top.waitTime })⟩
    else h

/-- Lines 76–88 of `Scheduler.run`: while the root entity exists and has
`waitTime <= 0`, pop it, remember `oldWaitTime`, invoke `update()` (the
`upd` parameter), enforce the anti-deadlock bump, and collect the entity in
the pending re-insertion list `acc`.  In the source the entity object is
appended to `updatedEntities` before `update()` runs, but being mutable it
carries its final `waitTime` when `pushAll` later reads it, so `acc`
collects the post-correction value.  `evs` records one event per `update()`
invocation.  The fuel is the heap size: each iteration pops one element and
inserts none, so the loop drains in at most `size` steps. -/
def runLoopF (upd : Nat → Int → Int) :
    Nat → BinaryHeap → List TimedEntity → List ActEvent →
    BinaryHeap × List TimedEntity × List ActEvent
  | 0, h, acc, evs => (h, acc, evs)
  | fuel + 1, h, acc, evs =>
    match h.peek with
    | none => (h, acc, evs)
    | some e =>
      if e.waitTime ≤ 0 then
        let h' := h.pop
        let oldWaitTime := e.waitTime
        let newW := upd e.id oldWaitTime
        let finalW := if newW ≤ oldWaitTime then oldWaitTime + 1 else newW
        runLoopF upd fuel h' (acc ++ [⟨e.id, finalW⟩])
          (evs ++ [⟨e.id, oldWaitTime, newW, finalW⟩])
      else (h, acc, evs)

/-- Source `run()` (lines 64–91), instrumented with the list of activation events:
return unchanged when paused or empty; otherwise bulk-decrement, drain the
activation loop, and push the updated entities back with `pushAll`. -/
def runTrace (upd : Nat → Int → Int) (s : Scheduler) :
    Scheduler × List ActEvent :=
  if s.paused || s.entities.isEmpty then (s, [])
  else
    let h1 := decrementAll s.entities
    let r := runLoopF upd h1.size h1 [] []
    ({ s with entities := r.1.pushAll r.2.1 }, r.2.2)

/-- Source `run()` as a state transformer (the events discarded). -/
def run (upd : Nat → Int → Int) (s : Scheduler) : Scheduler :=
  (runTrace upd s).1

/-- Spec §8 scenario: every `update()` sets `waitTime = 2` (only entity B is
ever activated in the scenario, so only its behaviour matters). -/
def updB : Nat → Int → Int := fun _ _ => 2

/-- Spec §8 scenario: A(id 0, waitTime 3), B(id 1, waitTime 1),
C(id 2, waitTime 5) added in that order. -/
def schedABC : Scheduler :=
  ((Scheduler.empty.add ⟨0, 3⟩).add ⟨1, 1⟩).add ⟨2, 5⟩

/-- Two entities A(id 0, waitTime 1), B(id 1, waitTime 5); A's `update()`
always sets `waitTime = 2`, so A is the minimum again on the next pass. -/
def updFast : Nat → Int → Int := fun i w => if i = 0 then 2 else w + 10

/-- Companion scheduler for `updFast`. -/
def schedAB : Scheduler := (Scheduler.empty.add ⟨0, 1⟩).add ⟨1, 5⟩

/-- Every `update()` sets `waitTime = 5`. -/
def updFive : Nat → Int → Int := fun _ _ => 5

/-- A scheduler whose minimum entry `waitTime` is negative:
A(id 0, waitTime -1), B(id 1, waitTime 3). -/
def schedNeg : Scheduler := (Scheduler.empty.add ⟨0, -1⟩).add ⟨1, 3⟩

/-- Two entities tied at `waitTime = 2`, for the simultaneous-activation
scenario. -/
def schedTie : Scheduler := (Scheduler.empty.add ⟨0, 2⟩).add ⟨1, 2⟩

/-- An `update()` that never changes `waitTime` (so the anti-deadlock bump
always fires). -/
def updStay : Nat → Int → Int := fun _ w => w

/-- A single entity with `waitTime = 1`. -/
def schedOne : Scheduler := Scheduler.empty.add ⟨0, 1⟩

end Scheduler

/-! ## Heap lemmas: length, permutation -/

namespace BinaryHeap

theorem hswap_length (l : List TimedEntity) (i j : Nat) :
    (hswap l i j).length = l.length := by
  unfold hswap
  cases l[i]? <;> cases l[j]? <;> simp

theorem hswap_perm (l : List TimedEntity) (i j : Nat) : (hswap l i j).Perm l := by
  unfold hswap
  split
  · rename_i a b hi hj
    obtain ⟨hi', ha⟩ := List.getElem?_eq_some.mp hi
    obtain ⟨hj', hb⟩ := List.getElem?_eq_some.mp hj
    subst ha
    subst hb
    rw [List.perm_iff_count]
    intro x
    have h1 : l[i] = x → 1 ≤ List.count x l := fun hx =>
      List.one_le_count_iff.mpr (hx ▸ List.getElem_mem hi')
    have h2 : l[j] = x → 1 ≤ List.count x l := fun hx =>
      List.one_le_count_iff.mpr (hx ▸ List.getElem_mem hj')
    by_cases hij : i = j
    · subst hij
      by_cases hix : l[i] = x
      · have hc := h1 hix
        simp [List.set_set, List.count_set, hi', hix] <;> omega
      · simp [List.set_set, List.count_set, hi', hix] <;> omega
    · by_cases hix : l[i] = x <;> by_cases hjx : l[j] = x
      · have hc := h1 hix
        simp [List.count_set, List.getElem_set_ne hij, hi', hj', hix, hjx] <;> omega
      · have hc := h1 hix
        simp [List.count_set, List.getElem_set_ne hij, hi', hj', hix, hjx] <;> omega
      · simp [List.count_set, List.getElem_set_ne hij, hi', hj', hix, hjx] <;> omega
      · simp [List.count_set, List.getElem_set_ne hij, hi', hj', hix, hjx] <;> omega
  · exact List.Perm.refl l

theorem siftUpF_perm (fuel : Nat) :
    ∀ (l : List TimedEntity) (i : Nat), (siftUpF fuel l i).Perm l := by
  induction fuel with
  | zero => intro l i; exact List.Perm.refl l
  | succ fuel ih =>
    intro l i
    cases i with
    | zero => exact List.Perm.refl l
    | succ n =>
      unfold siftUpF
      split
      · split
        · exact (ih _ _).trans (hswap_perm _ _ _)
        · exact List.Perm.refl l
      · exact List.Perm.refl l

theorem siftDownF_perm (fuel : Nat) :
    ∀ (l : List TimedEntity) (i : Nat), (siftDownF fuel l i).Perm l := by
  induction fuel with
  | zero => intro l i; exact List.Perm.refl l
  | succ fuel ih =>
    intro l i
    unfold siftDownF
    split
    · split
      · split
        · exact (ih _ _).trans (hswap_perm _ _ _)
        · exact List.Perm.refl l
      · split
        · exact (ih _ _).trans (hswap_perm _ _ _)
        · exact List.Perm.refl l
    · split
      · exact (ih _ _).trans (hswap_perm _ _ _)
      · exact List.Perm.refl l
    · exact List.Perm.refl l

theorem siftDown_perm (l : List TimedEntity) (i : Nat) :
    (siftDown l i).Perm l := siftDownF_perm _ l i

theorem push_perm (h : BinaryHeap) (e : TimedEntity) :
    (push h e).data.Perm (e :: h.data) := by
  unfold push siftUp
  exact (siftUpF_perm _ _ _).trans (List.perm_append_singleton e h.data)

theorem pushAll_perm (h : BinaryHeap) (es : List TimedEntity) :
    (pushAll h es).data.Perm (h.data ++ es) := by
  induction es generalizing h with
  | nil => simp [pushAll]
  | cons e es ih =>
    have h1 : (pushAll h (e :: es)).data.Perm ((push h e).data ++ es) := by
      simpa [pushAll] using ih (push h e)
    refine h1.trans ?_
    refine (((push_perm h e).append_right es).trans ?_)
    exact (List.perm_middle).symm

theorem pop_perm (h : BinaryHeap) (e : TimedEntity) (hpk : h.peek = some e) :
    h.data.Perm (e :: (pop h).data) := by
  unfold peek at hpk
  unfold pop
  cases hd : h.data with
  | nil => rw [hd] at hpk; simp at hpk
  | cons x rest =>
    rw [hd] at hpk
    have hx : x = e := by simpa using hpk
    subst hx
    cases rest with
    | nil => simp
    | cons b t =>
      have hne : (b :: t) ≠ [] := by simp
      rw [List.getLast?_eq_getLast_of_ne_nil (l := x :: b :: t) (by simp)]
      have hlast : (x :: b :: t).getLast (by simp) = (b :: t).getLast hne :=
        List.getLast_cons hne
      simp only [hlast, List.dropLast_cons₂, List.isEmpty_cons, List.set_cons_zero,
        Bool.false_eq_true, if_false]
      refine List.Perm.cons x ?_
      have hsd : (siftDown ((b :: t).getLast hne :: (b :: t).dropLast) 0).Perm
          ((b :: t).getLast hne :: (b :: t).dropLast) := siftDown_perm _ _
      have h3 : (b :: t).Perm ((b :: t).getLast hne :: (b :: t).dropLast) := by
        conv_lhs => rw [← List.dropLast_append_getLast hne]
        exact List.perm_append_singleton _ _
      exact h3.trans hsd.symm

theorem pop_length (h : BinaryHeap) (e : TimedEntity) (hpk : h.peek = some e) :
    (pop h).data.length = h.data.length - 1 := by
  have := (pop_perm h e hpk).length_eq
  simp at this
  omega

/-! ## Heap lemmas: the heap invariant -/

theorem get_eq_of_getElem?_eq_some (l : List TimedEntity) (k : Nat)
    (hk : k < l.length) (x : TimedEntity) (h : l[k]? = some x) :
    l.get ⟨k, hk⟩ = x := by
  rw [List.get_eq_getElem]
  rw [List.getElem?_eq_getElem hk] at h
  exact Option.some.inj h

theorem hswap_getElem? (l : List TimedEntity) (i j k : Nat)
    (hi : i < l.length) (hj : j < l.length) :
    (hswap l i j)[k]? =
      if k = j then some (l.get ⟨i, hi⟩)
      else if k = i then some (l.get ⟨j, hj⟩)
      else l[k]? := by
  unfold hswap
  rw [List.getElem?_eq_getElem hi, List.getElem?_eq_getElem hj]
  by_cases hkj : k = j
  · subst hkj
    simp [List.getElem?_set, hj, List.get_eq_getElem]
  · by_cases hki : k = i
    · subst hki
      simp [List.getElem?_set, hi, Ne.symm hkj, hkj, List.get_eq_getElem]
    · simp [List.getElem?_set, Ne.symm hkj, Ne.symm hki, hkj, hki]

theorem keyAt_hswap (l : List TimedEntity) (i j k : Nat)
    (hi : i < l.length) (hj : j < l.length) (hk : k < l.length)
    (hk' : k < (hswap l i j).length) :
    keyAt (hswap l i j) k hk' =
      if k = j then keyAt l i hi else if k = i then keyAt l j hj
      else keyAt l k hk := by
  have h := hswap_getElem? l i j k hi hj
  have hlk : l[k]? = some (l.get ⟨k, hk⟩) := by
    rw [List.getElem?_eq_getElem hk, List.get_eq_getElem]
  unfold keyAt
  split_ifs at h ⊢
  · rw [get_eq_of_getElem?_eq_some _ _ hk' _ h]
  · rw [get_eq_of_getElem?_eq_some _ _ hk' _ h]
  · rw [get_eq_of_getElem?_eq_some _ _ hk' _ (h.trans hlk)]

theorem heapProp_root_le (l : List TimedEntity) (hp : heapProp l) :
    ∀ (j : Nat) (hj : j < l.length) (h0 : 0 < l.length),
      keyAt l 0 h0 ≤ keyAt l j hj := by
  intro j
  induction j using Nat.strong_induction_on with
  | _ j ih =>
    intro hj h0
    rcases Nat.eq_zero_or_pos j with h | h
    · subst h
      exact le_refl _
    · have hpar := hp j hj h
      have hplt : (j - 1) / 2 < j := by omega
      exact le_trans (ih _ hplt (by omega) h0) hpar

theorem heapProp_peek_min (h : BinaryHeap) (hp : heapProp h.data)
    (e : TimedEntity) (hpk : h.peek = some e) :
    (h.data.map TimedEntity.waitTime).min? = some e.waitTime := by
  unfold peek at hpk
  obtain ⟨h0, hget⟩ := List.getElem?_eq_some.mp hpk
  have anti : Std.Antisymm (fun (x1 x2 : Int) => x1 ≤ x2) :=
    ⟨fun h1 h2 => le_antisymm h1 h2⟩
  refine (@List.min?_eq_some_iff Int e.waitTime _ _ anti
    (fun a => le_refl a) (fun a b => min_choice a b) (fun a b c => le_min_iff)
    _).mpr ⟨?_, ?_⟩
  · exact List.mem_map.mpr ⟨e, hget ▸ List.getElem_mem h0, rfl⟩
  · intro b hb
    obtain ⟨y, hy, rfl⟩ := List.mem_map.mp hb
    obtain ⟨k, hk, rfl⟩ := List.mem_iff_getElem.mp hy
    have hroot := heapProp_root_le h.data hp k hk (by omega)
    unfold keyAt key at hroot
    simpa [List.get_eq_getElem, hget] using hroot

theorem root_le_mem (h : BinaryHeap) (hp : heapProp h.data)
    (root e : TimedEntity) (hpk : h.peek = some root) (he : e ∈ h.data) :
    root.waitTime ≤ e.waitTime := by
  unfold peek at hpk
  obtain ⟨h0, hget⟩ := List.getElem?_eq_some.mp hpk
  obtain ⟨k, hk, hek⟩ := List.mem_iff_getElem.mp he
  have hmin := heapProp_root_le h.data hp k hk (by omega)
  unfold keyAt key at hmin
  have h2 : (h.data.get ⟨k, hk⟩).waitTime = e.waitTime := by
    have hx : h.data.get ⟨k, hk⟩ = e := by
      rw [List.get_eq_getElem]
      exact hek
    rw [hx]
  have h0' : (h.data.get ⟨0, by omega⟩).waitTime = root.waitTime := by
    have hx : h.data.get ⟨0, by omega⟩ = root := by
      rw [List.get_eq_getElem]
      exact hget
    rw [hx]
  calc root.waitTime = (h.data.get ⟨0, by omega⟩).waitTime := h0'.symm
    _ ≤ (h.data.get ⟨k, hk⟩).waitTime := hmin
    _ = e.waitTime := h2

theorem keyAt_congr (l : List TimedEntity) (a b : Nat) (hab : a = b)
    (ha : a < l.length) (hb : b < l.length) : keyAt l a ha = keyAt l b hb := by
  subst hab
  rfl

theorem keyAt_eq_of_getElem? (l : List TimedEntity) (k : Nat) (hk : k < l.length)
    (x : TimedEntity) (h : l[k]? = some x) : keyAt l k hk = key x := by
  unfold keyAt
  rw [get_eq_of_getElem?_eq_some l k hk x h]

theorem child_cases (i j : Nat) (h0 : 0 < j) :
    (j - 1) / 2 = i ↔ j = 2 * i + 1 ∨ j = 2 * i + 2 := by omega

theorem heapProp_of_children_ge (l : List TimedEntity) (i : Nat)
    (hex : heapPropExcept l i)
    (hch : ∀ (j : Nat) (hj : j < l.length) (hi' : i < l.length),
      j = 2 * i + 1 ∨ j = 2 * i + 2 → keyAt l i hi' ≤ keyAt l j hj) :
    heapProp l := by
  intro j hj h0
  by_cases hpar : (j - 1) / 2 = i
  · have hji := (child_cases i j h0).mp hpar
    have hi' : i < l.length := by omega
    rw [keyAt_congr l _ i hpar (by omega) hi']
    exact hch j hj hi' hji
  · exact hex j hj h0 hpar

theorem hswap_sift_invariants (l : List TimedEntity) (i m : Nat)
    (hi : i < l.length) (hm : m < l.length)
    (hchild : m = 2 * i + 1 ∨ m = 2 * i + 2)
    (hex : heapPropExcept l i) (hgp : gpBound l i)
    (hmin : ∀ (j : Nat) (hj : j < l.length),
      j = 2 * i + 1 ∨ j = 2 * i + 2 → keyAt l m hm ≤ keyAt l j hj)
    (hlt : keyAt l m hm < keyAt l i hi) :
    heapPropExcept (hswap l i m) m ∧ gpBound (hswap l i m) m := by
  have him : i < m := by omega
  have hlen := hswap_length l i m
  constructor
  · -- the heap invariant holds except below the new hole `m`
    intro j hj' h0 hne
    have hj : j < l.length := by omega
    have hp : (j - 1) / 2 < l.length := by omega
    rw [keyAt_hswap l i m ((j - 1) / 2) hi hm hp (by omega),
      keyAt_hswap l i m j hi hm hj hj']
    by_cases hjm : j = m
    · -- the edge from the old hole to the new hole: swapped values
      have hpar : (j - 1) / 2 = i := by omega
      rw [if_neg (show ¬ (j - 1) / 2 = m by omega), if_pos hpar, if_pos hjm]
      exact le_of_lt hlt
    · by_cases hji : j = i
      · -- the edge into the old hole from above
        have h0i : 0 < i := hji ▸ h0
        rw [if_neg hne, if_neg (show ¬ (j - 1) / 2 = i by omega),
          if_neg hjm, if_pos hji]
        have hres := hgp m hm h0i (by omega) (by omega)
        rw [keyAt_congr l ((j - 1) / 2) ((i - 1) / 2) (by omega) hp (by omega)]
        exact hres
      · by_cases hpar : (j - 1) / 2 = i
        · -- j is the other child of the old hole
          have hpm2 : ¬ (j - 1) / 2 = m := by omega
          rw [if_neg hpm2, if_pos hpar, if_neg hjm, if_neg hji]
          exact hmin j hj (by omega)
        · -- an edge not incident to the hole at all
          have hpm2 : ¬ (j - 1) / 2 = m := hne
          have hppi : ¬ (j - 1) / 2 = i := hpar
          rw [if_neg hpm2, if_neg hppi, if_neg hjm, if_neg hji]
          exact hex j hj h0 hpar
  · -- the old hole (now holding the minimum child) dominates the new
    -- hole's children
    intro j hj' h0m hpar hp'
    have hj : j < l.length := by omega
    have hmj : m < j := by omega
    have hpari : (m - 1) / 2 = i := by omega
    have hip : i < l.length := hi
    rw [keyAt_congr _ _ i hpari hp' (by omega),
      keyAt_hswap l i m i hi hm hi (by omega),
      keyAt_hswap l i m j hi hm hj hj']
    rw [if_neg (by omega : ¬ i = m), if_pos rfl,
      if_neg (by omega : ¬ j = m), if_neg (by omega : ¬ j = i)]
    have := hex j hj (by omega) (by omega)
    rw [keyAt_congr l _ m hpar (by omega) hm] at this
    exact this

theorem siftDownF_heapProp (fuel : Nat) :
    ∀ (l : List TimedEntity) (i : Nat), l.length ≤ fuel + i →
      heapPropExcept l i → gpBound l i → heapProp (siftDownF fuel l i) := by
  induction fuel with
  | zero =>
    intro l i hlen hex _
    show heapProp l
    intro j hj h0
    refine hex j hj h0 ?_
    intro hpar
    have := (child_cases i j h0).mp hpar
    omega
  | succ fuel ih =>
    intro l i hlen hex hgp
    unfold siftDownF
    split
    · -- both children in range
      rename_i cur c1 c2 hcur hc1 hc2
      obtain ⟨hi, hgi⟩ := List.getElem?_eq_some.mp hcur
      obtain ⟨h1, hg1⟩ := List.getElem?_eq_some.mp hc1
      obtain ⟨h2, hg2⟩ := List.getElem?_eq_some.mp hc2
      have ki : keyAt l i hi = key cur := keyAt_eq_of_getElem? l i hi cur hcur
      have k1 : keyAt l (2 * i + 1) h1 = key c1 :=
        keyAt_eq_of_getElem? l _ h1 c1 hc1
      have k2 : keyAt l (2 * i + 2) h2 = key c2 :=
        keyAt_eq_of_getElem? l _ h2 c2 hc2
      split
      · -- right child is the smaller child
        rename_i h21
        split
        · -- it beats the hole: swap right and recurse
          rename_i h2c
          have hmin : ∀ (j : Nat) (hj : j < l.length),
              j = 2 * i + 1 ∨ j = 2 * i + 2 →
              keyAt l (2 * i + 2) h2 ≤ keyAt l j hj := by
            intro j hj hch
            rcases hch with rfl | rfl
            · rw [k2, k1]; exact le_of_lt h21
            · exact le_refl _
          have hinv := hswap_sift_invariants l i (2 * i + 2) hi h2
            (Or.inr rfl) hex hgp hmin (by rw [k2, ki]; exact h2c)
          exact ih _ _ (by rw [hswap_length]; omega) hinv.1 hinv.2
        · -- the hole already beats its smaller child: done
          rename_i h2c
          refine heapProp_of_children_ge l i hex ?_
          intro j hj hi' hch
          rw [keyAt_congr l i i rfl hi' hi, ki]
          rcases hch with rfl | rfl
          · rw [k1]; exact le_of_lt (lt_of_le_of_lt (not_lt.mp h2c) h21)
          · rw [k2]; exact not_lt.mp h2c
      · -- left child is the (weakly) smaller child
        rename_i h21
        split
        · rename_i h1c
          have hmin : ∀ (j : Nat) (hj : j < l.length),
              j = 2 * i + 1 ∨ j = 2 * i + 2 →
              keyAt l (2 * i + 1) h1 ≤ keyAt l j hj := by
            intro j hj hch
            rcases hch with rfl | rfl
            · exact le_refl _
            · rw [k1, k2]; exact not_lt.mp h21
          have hinv := hswap_sift_invariants l i (2 * i + 1) hi h1
            (Or.inl rfl) hex hgp hmin (by rw [k1, ki]; exact h1c)
          exact ih _ _ (by rw [hswap_length]; omega) hinv.1 hinv.2
        · rename_i h1c
          refine heapProp_of_children_ge l i hex ?_
          intro j hj hi' hch
          rw [keyAt_congr l i i rfl hi' hi, ki]
          rcases hch with rfl | rfl
          · rw [k1]; exact not_lt.mp h1c
          · rw [k2]; exact le_trans (not_lt.mp h1c) (not_lt.mp h21)
    · -- only the left child is in range
      rename_i cur c1 hcur hc1 hc2
      obtain ⟨hi, hgi⟩ := List.getElem?_eq_some.mp hcur
      obtain ⟨h1, hg1⟩ := List.getElem?_eq_some.mp hc1
      have hlen2 : l.length ≤ 2 * i + 2 := List.getElem?_eq_none_iff.mp hc2
      have ki : keyAt l i hi = key cur := keyAt_eq_of_getElem? l i hi cur hcur
      have k1 : keyAt l (2 * i + 1) h1 = key c1 :=
        keyAt_eq_of_getElem? l _ h1 c1 hc1
      split
      · rename_i h1c
        have hmin : ∀ (j : Nat) (hj : j < l.length),
            j = 2 * i + 1 ∨ j = 2 * i + 2 →
            keyAt l (2 * i + 1) h1 ≤ keyAt l j hj := by
          intro j hj hch
          rcases hch with rfl | rfl
          · exact le_refl _
          · omega
        have hinv := hswap_sift_invariants l i (2 * i + 1) hi h1
          (Or.inl rfl) hex hgp hmin (by rw [k1, ki]; exact h1c)
        exact ih _ _ (by rw [hswap_length]; omega) hinv.1 hinv.2
      · rename_i h1c
        refine heapProp_of_children_ge l i hex ?_
        intro j hj hi' hch
        rw [keyAt_congr l i i rfl hi' hi, ki]
        rcases hch with rfl | rfl
        · rw [k1]; exact not_lt.mp h1c
        · omega
    · -- the hole or its left child is out of range: nothing to sift
      rename_i hfall1 hfall2
      refine heapProp_of_children_ge l i hex ?_
      intro j hj hi' hch
      exfalso
      have h1 : 2 * i + 1 < l.length := by omega
      cases hcur : l[i]? with
      | none => exact absurd (List.getElem?_eq_none_iff.mp hcur) (by omega)
      | some cur =>
        cases hc1 : l[2 * i + 1]? with
        | none => exact absurd (List.getElem?_eq_none_iff.mp hc1) (by omega)
        | some c1 =>
          cases hc2 : l[2 * i + 2]? with
          | none => exact hfall2 cur c1 hcur hc1 hc2
          | some c2 => exact hfall1 cur c1 c2 hcur hc1 hc2

theorem siftDown_heapProp (l : List TimedEntity) (i : Nat)
    (hex : heapPropExcept l i) (hgp : gpBound l i) :
    heapProp (siftDown l i) :=
  siftDownF_heapProp l.length l i (by omega) hex hgp

theorem pop_heapProp (h : BinaryHeap) (hp : heapProp h.data) :
    heapProp (pop h).data := by
  unfold pop
  cases hL : h.data.getLast? with
  | none => exact hp
  | some last =>
    show heapProp (if h.data.dropLast.isEmpty = true then (⟨[]⟩ : BinaryHeap)
      else ⟨siftDown (h.data.dropLast.set 0 last) 0⟩).data
    by_cases hE : h.data.dropLast.isEmpty
    · rw [if_pos hE]
      intro j hj h0
      simp at hj
    · rw [if_neg hE]
      have hlen : h.data.dropLast.length = h.data.length - 1 :=
        List.length_dropLast h.data
      have hkey : ∀ (k : Nat), 0 < k →
          ∀ (hk : k < ((h.data.dropLast).set 0 last).length)
            (hk2 : k < h.data.length),
          keyAt ((h.data.dropLast).set 0 last) k hk = keyAt h.data k hk2 := by
        intro k hk1 hk hk2
        unfold keyAt key
        rw [List.get_eq_getElem, List.get_eq_getElem]
        rw [List.getElem_set_ne (show (0 : Nat) ≠ k by omega)]
        rw [List.getElem_dropLast]
      have hlenq : ((h.data.dropLast).set 0 last).length = h.data.length - 1 := by
        rw [List.length_set, List.length_dropLast]
      apply siftDown_heapProp
      · intro j hj h0 hpar
        have hj2 : j < h.data.length := by
          rw [hlenq] at hj
          omega
        rw [hkey _ (by omega) _ (by omega)]
        rw [hkey _ h0 _ hj2]
        exact hp j hj2 h0
      · intro j hj h0i hpar hpb
        exact absurd h0i (by omega)

end BinaryHeap

namespace Scheduler

theorem decrementAll_eq_of_none (h : BinaryHeap) (hpk : h.peek = none) :
    decrementAll h = h := by
  unfold decrementAll
  rw [hpk]

theorem decrementAll_eq_of_nonpos (h : BinaryHeap) (top : TimedEntity)
    (hpk : h.peek = some top) (hnp : ¬ 0 < top.waitTime) :
    decrementAll h = h := by
  unfold decrementAll
  rw [hpk]
  show (if top.waitTime > 0 then
    (⟨h.data.map fun e => { e with waitTime := e.waitTime - top.waitTime }⟩ :
      BinaryHeap) else h) = h
  rw [if_neg hnp]

theorem decrementAll_data_pos (h : BinaryHeap) (top : TimedEntity)
    (hpk : h.peek = some top) (hpos : 0 < top.waitTime) :
    (decrementAll h).data =
      h.data.map (fun e => ⟨e.id, e.waitTime - top.waitTime⟩) := by
  unfold decrementAll
  rw [hpk]
  show (if top.waitTime > 0 then
    (⟨h.data.map fun e => { e with waitTime := e.waitTime - top.waitTime }⟩ :
      BinaryHeap) else h).data = _
  rw [if_pos hpos]

theorem decrementAll_map_id (h : BinaryHeap) :
    (decrementAll h).data.map TimedEntity.id = h.data.map TimedEntity.id := by
  cases hpk : h.peek with
  | none => rw [decrementAll_eq_of_none h hpk]
  | some top =>
    by_cases hpos : 0 < top.waitTime
    · rw [decrementAll_data_pos h top hpk hpos, List.map_map]
      rfl
    · rw [decrementAll_eq_of_nonpos h top hpk hpos]

theorem decrementAll_length (h : BinaryHeap) :
    (decrementAll h).data.length = h.data.length := by
  have := decrementAll_map_id h
  have h1 := congrArg List.length this
  simpa using h1

theorem decrementAll_heapProp (h : BinaryHeap) (hp : BinaryHeap.heapProp h.data) :
    BinaryHeap.heapProp (decrementAll h).data := by
  cases hpk : h.peek with
  | none => rw [decrementAll_eq_of_none h hpk]; exact hp
  | some top =>
    by_cases hpos : 0 < top.waitTime
    · rw [decrementAll_data_pos h top hpk hpos]
      intro j hj h0
      have hj' : j < h.data.length := by simpa using hj
      have hbase := hp j hj' h0
      unfold BinaryHeap.keyAt BinaryHeap.key at hbase ⊢
      simp only [List.get_eq_getElem, List.getElem_map] at hbase ⊢
      exact sub_le_sub_right hbase _
    · rw [decrementAll_eq_of_nonpos h top hpk hpos]
      exact hp

theorem peek_none_iff (h : BinaryHeap) : h.peek = none ↔ h.data = [] := by
  unfold BinaryHeap.peek
  rw [List.getElem?_eq_none_iff, Nat.le_zero, List.length_eq_zero]

theorem pushAll_coe (h : BinaryHeap) (es : List TimedEntity) :
    ((h.pushAll es).data : Multiset TimedEntity) =
      (h.data : Multiset TimedEntity) + (es : Multiset TimedEntity) := by
  rw [Multiset.coe_eq_coe.mpr (BinaryHeap.pushAll_perm h es), Multiset.coe_add]

theorem runLoopF_succ (upd : Nat → Int → Int) (fuel : Nat) (h : BinaryHeap)
    (acc : List TimedEntity) (evs : List ActEvent) :
    runLoopF upd (fuel + 1) h acc evs =
      match h.peek with
      | none => (h, acc, evs)
      | some e =>
        if e.waitTime ≤ 0 then
          runLoopF upd fuel h.pop
            (acc ++ [⟨e.id, if upd e.id e.waitTime ≤ e.waitTime then
              e.waitTime + 1 else upd e.id e.waitTime⟩])
            (evs ++ [⟨e.id, e.waitTime, upd e.id e.waitTime,
              if upd e.id e.waitTime ≤ e.waitTime then e.waitTime + 1
              else upd e.id e.waitTime⟩])
        else (h, acc, evs) := rfl

/-- One step of the activation loop, with the `peek` outcome known. -/
theorem runLoopF_step (upd : Nat → Int → Int) (fuel : Nat) (h : BinaryHeap)
    (acc : List TimedEntity) (evs : List ActEvent) (e : TimedEntity)
    (hpk : h.peek = some e) (hle : e.waitTime ≤ 0) :
    runLoopF upd (fuel + 1) h acc evs =
      runLoopF upd fuel h.pop
        (acc ++ [⟨e.id, if upd e.id e.waitTime ≤ e.waitTime then
          e.waitTime + 1 else upd e.id e.waitTime⟩])
        (evs ++ [⟨e.id, e.waitTime, upd e.id e.waitTime,
          if upd e.id e.waitTime ≤ e.waitTime then e.waitTime + 1
          else upd e.id e.waitTime⟩]) := by
  rw [runLoopF_succ, hpk]
  dsimp only
  rw [if_pos hle]

theorem runLoopF_stop_none (upd : Nat → Int → Int) (fuel : Nat) (h : BinaryHeap)
    (acc : List TimedEntity) (evs : List ActEvent) (hpk : h.peek = none) :
    runLoopF upd (fuel + 1) h acc evs = (h, acc, evs) := by
  rw [runLoopF_succ, hpk]

theorem runLoopF_stop_pos (upd : Nat → Int → Int) (fuel : Nat) (h : BinaryHeap)
    (acc : List TimedEntity) (evs : List ActEvent) (e : TimedEntity)
    (hpk : h.peek = some e) (hle : ¬ e.waitTime ≤ 0) :
    runLoopF upd (fuel + 1) h acc evs = (h, acc, evs) := by
  rw [runLoopF_succ, hpk]
  dsimp only
  rw [if_neg hle]

/-- The activation-loop specification: the loop appends one event per pop,
pops exactly the entities recorded in the events (at their popped values),
re-inserts each at its corrected value, applies `update()` and the
anti-deadlock correction as the source does, stops only when the heap is
empty or its root is strictly positive, and preserves the heap invariant. -/
theorem runLoopF_spec (upd : Nat → Int → Int) (fuel : Nat) :
    ∀ (h : BinaryHeap) (acc : List TimedEntity) (evs : List ActEvent),
      h.data.length ≤ fuel →
      ∃ new : List ActEvent,
        (runLoopF upd fuel h acc evs).2.2 = evs ++ new ∧
        (runLoopF upd fuel h acc evs).2.1 = acc ++ new.map ActEvent.reinserted ∧
        (h.data : Multiset TimedEntity) =
          ((runLoopF upd fuel h acc evs).1.data : Multiset TimedEntity)
            + (new.map ActEvent.popped : List TimedEntity) ∧
        (∀ ev ∈ new,
          ev.oldWaitTime ≤ 0 ∧
          ev.newWaitTime = upd ev.id ev.oldWaitTime ∧
          ev.finalWaitTime =
            if ev.newWaitTime ≤ ev.oldWaitTime then ev.oldWaitTime + 1
            else ev.newWaitTime) ∧
        (∀ e, (runLoopF upd fuel h acc evs).1.peek = some e → 0 < e.waitTime) ∧
        (BinaryHeap.heapProp h.data →
          BinaryHeap.heapProp (runLoopF upd fuel h acc evs).1.data) := by
  induction fuel with
  | zero =>
    intro h acc evs hfuel
    have hnil : h.data = [] := List.length_eq_zero.mp (Nat.le_zero.mp hfuel)
    refine ⟨[], ?_, ?_, ?_, ?_, ?_, fun hp => hp⟩
    · show evs = evs ++ []
      simp
    · show acc = acc ++ List.map ActEvent.reinserted []
      simp
    · show (h.data : Multiset TimedEntity) =
        ↑h.data + ↑(List.map ActEvent.popped ([] : List ActEvent))
      simp
    · intro ev hev
      simp at hev
    · intro e hpe
      rw [show (runLoopF upd 0 h acc evs).1 = h from rfl,
        (peek_none_iff h).mpr hnil] at hpe
      cases hpe
  | succ fuel ih =>
    intro h acc evs hfuel
    cases hpk : h.peek with
    | none =>
      have hred := runLoopF_stop_none upd fuel h acc evs hpk
      refine ⟨[], by rw [hred]; simp, by rw [hred]; simp, by rw [hred]; simp,
        ?_, ?_, ?_⟩
      · intro ev hev
        simp at hev
      · intro e hpe
        rw [hred] at hpe
        rw [hpk] at hpe
        cases hpe
      · intro hp
        rw [hred]
        exact hp
    | some e =>
      by_cases hle : e.waitTime ≤ 0
      · have hred := runLoopF_step upd fuel h acc evs e hpk hle
        have hpos0 : 0 < h.data.length := by
          by_contra hc
          rw [(peek_none_iff h).mpr (List.length_eq_zero.mp (by omega))] at hpk
          cases hpk
        have hlen : h.pop.data.length ≤ fuel := by
          rw [BinaryHeap.pop_length h e hpk]
          omega
        obtain ⟨new', h1, h2, h3, h4, h5, h6⟩ :=
          ih h.pop
            (acc ++ [⟨e.id, if upd e.id e.waitTime ≤ e.waitTime then
              e.waitTime + 1 else upd e.id e.waitTime⟩])
            (evs ++ [⟨e.id, e.waitTime, upd e.id e.waitTime,
              if upd e.id e.waitTime ≤ e.waitTime then e.waitTime + 1
              else upd e.id e.waitTime⟩]) hlen
        refine ⟨⟨e.id, e.waitTime, upd e.id e.waitTime,
          if upd e.id e.waitTime ≤ e.waitTime then e.waitTime + 1
          else upd e.id e.waitTime⟩ :: new', ?_, ?_, ?_, ?_, ?_, ?_⟩
        · rw [hred, h1, List.append_assoc]
          rfl
        · rw [hred, h2, List.append_assoc]
          rfl
        · rw [hred]
          have hcoe : (h.data : Multiset TimedEntity) =
              ((e :: h.pop.data : List TimedEntity) : Multiset TimedEntity) :=
            Multiset.coe_eq_coe.mpr (BinaryHeap.pop_perm h e hpk)
          rw [hcoe, ← Multiset.cons_coe, h3, List.map_cons, ← Multiset.cons_coe,
            ← Multiset.singleton_add, ← Multiset.singleton_add, add_left_comm]
          rfl
        · intro ev hev
          rcases List.mem_cons.mp hev with rfl | hmem
          · exact ⟨hle, rfl, rfl⟩
          · exact h4 ev hmem
        · intro e' hpe
          rw [hred] at hpe
          exact h5 e' hpe
        · intro hp
          rw [hred]
          exact h6 (BinaryHeap.pop_heapProp h hp)
      · have hred := runLoopF_stop_pos upd fuel h acc evs e hpk hle
        refine ⟨[], by rw [hred]; simp, by rw [hred]; simp, by rw [hred]; simp,
          ?_, ?_, ?_⟩
        · intro ev hev
          simp at hev
        · intro e' hpe
          rw [hred] at hpe
          rw [hpk] at hpe
          cases hpe
          omega
        · intro hp
          rw [hred]
          exact hp

theorem runTrace_noop_aux (upd : Nat → Int → Int) (s : Scheduler)
    (h : s.paused = true ∨ s.entities.isEmpty = true) :
    runTrace upd s = (s, []) := by
  unfold runTrace
  rcases h with h | h
  · rw [h]
    rfl
  · rw [h]
    cases hp : s.paused <;> rfl

theorem run_noop_aux (upd : Nat → Int → Int) (s : Scheduler)
    (h : s.paused = true ∨ s.entities.isEmpty = true) :
    run upd s = s :=
  congrArg Prod.fst (runTrace_noop_aux upd s h)

theorem isEmpty_false_of_ne_nil (h : BinaryHeap) (hne : h.data ≠ []) :
    h.isEmpty = false := by
  unfold BinaryHeap.isEmpty
  cases hd : h.data with
  | nil => exact absurd hd hne
  | cons a t => rfl

theorem runTrace_eq (upd : Nat → Int → Int) (s : Scheduler)
    (hpause : s.paused = false) (hne : s.entities.data ≠ []) :
    runTrace upd s =
      (Scheduler.mk
        ((runLoopF upd (decrementAll s.entities).size
            (decrementAll s.entities) [] []).1.pushAll
          (runLoopF upd (decrementAll s.entities).size
            (decrementAll s.entities) [] []).2.1)
        s.paused,
        (runLoopF upd (decrementAll s.entities).size
          (decrementAll s.entities) [] []).2.2) := by
  unfold runTrace
  rw [hpause, isEmpty_false_of_ne_nil s.entities hne]
  rfl

theorem paused_false_of_not (s : Scheduler)
    (hp : ¬ (s.paused = true ∨ s.entities.isEmpty = true)) :
    s.paused = false := by
  cases hpb : s.paused with
  | false => rfl
  | true => exact absurd (Or.inl hpb) hp

theorem data_ne_nil_of_not (s : Scheduler)
    (hp : ¬ (s.paused = true ∨ s.entities.isEmpty = true)) :
    s.entities.data ≠ [] := by
  intro hnil
  exact hp (Or.inr (by unfold BinaryHeap.isEmpty; rw [hnil]; rfl))

theorem run_entities_eq (upd : Nat → Int → Int) (s : Scheduler)
    (hpause : s.paused = false) (hne : s.entities.data ≠ []) :
    (run upd s).entities =
      (runLoopF upd (decrementAll s.entities).size
          (decrementAll s.entities) [] []).1.pushAll
        (runLoopF upd (decrementAll s.entities).size
          (decrementAll s.entities) [] []).2.1 := by
  unfold run
  rw [runTrace_eq upd s hpause hne]

theorem trace_eq_aux (upd : Nat → Int → Int) (s : Scheduler)
    (hpause : s.paused = false) (hne : s.entities.data ≠ []) :
    (runTrace upd s).2 =
      (runLoopF upd (decrementAll s.entities).size
        (decrementAll s.entities) [] []).2.2 := by
  rw [runTrace_eq upd s hpause hne]

end Scheduler

/-! ## The claims -/

/-- C9: `pause()`, `resume()` and `isPaused()` leave the entity queue
completely unchanged (membership, order, every entity's `waitTime`): the
first two touch only the `paused` flag, and `isPaused()` is a pure read of
that flag (in this functional embedding it consumes the state without
producing a new one, so it modifies nothing by construction). -/
theorem pause_resume_isPaused_frame (s : Scheduler) :
    (Scheduler.pause s).entities = s.entities ∧
    (Scheduler.resume s).entities = s.entities ∧
    Scheduler.isPaused s = s.paused ∧
    (Scheduler.pause s).paused = true ∧
    (Scheduler.resume s).paused = false :=
  ⟨rfl, rfl, rfl, rfl, rfl⟩

/-- C5: if the scheduler is paused or its queue is empty, `run()` returns
with no observable effect — same queue, same `paused` flag, no `update()`
invoked (empty event trace) — and any number of repeated `run()` calls
leaves the whole state identical. -/
theorem run_noop_when_paused_or_empty (upd : Nat → Int → Int) (s : Scheduler)
    (h : s.paused = true ∨ s.entities.isEmpty = true) :
    Scheduler.runTrace upd s = (s, []) ∧
    ∀ n : Nat, (Scheduler.run upd)^[n] s = s := by
  refine ⟨Scheduler.runTrace_noop_aux upd s h, ?_⟩
  intro n
  induction n with
  | zero => rfl
  | succ n ihn =>
    rw [Function.iterate_succ_apply, Scheduler.run_noop_aux upd s h, ihn]

/-- C5 witness: a concrete empty, unpaused scheduler. -/
theorem run_noop_when_paused_or_empty_witness :
    Scheduler.runTrace Scheduler.updStay Scheduler.empty =
      (Scheduler.empty, []) ∧
    ∀ n : Nat, (Scheduler.run Scheduler.updStay)^[n] Scheduler.empty =
      Scheduler.empty :=
  run_noop_when_paused_or_empty Scheduler.updStay Scheduler.empty
    (Or.inr (by decide))

/-- C1: for every entity popped during a `run()` call, if its `update()`
left `waitTime` at or below the value it had when `update()` was invoked,
the scheduler sets it to exactly (invocation-time value) + 1; if `update()`
strictly increased it, the scheduler leaves it unmodified — and the entity
is re-inserted carrying exactly that corrected value. -/
theorem run_enforces_antideadlock_bump (upd : Nat → Int → Int) (s : Scheduler) :
    ∀ ev ∈ (Scheduler.runTrace upd s).2,
      ev.newWaitTime = upd ev.id ev.oldWaitTime ∧
      (ev.newWaitTime ≤ ev.oldWaitTime →
        ev.finalWaitTime = ev.oldWaitTime + 1) ∧
      (ev.oldWaitTime < ev.newWaitTime →
        ev.finalWaitTime = ev.newWaitTime) ∧
      ActEvent.reinserted ev ∈ (Scheduler.run upd s).entities.data := by
  intro ev hev
  by_cases hp : s.paused = true ∨ s.entities.isEmpty = true
  · rw [Scheduler.runTrace_noop_aux upd s hp] at hev
    simp at hev
  · have hpf : s.paused = false := by
      cases hpb : s.paused with
      | false => rfl
      | true => exact absurd (Or.inl hpb) hp
    have hne : s.entities.data ≠ [] := by
      intro hnil
      exact hp (Or.inr (by unfold BinaryHeap.isEmpty; rw [hnil]; rfl))
    obtain ⟨new, e1, e2, e3, e4, e5, e6⟩ :=
      Scheduler.runLoopF_spec upd (Scheduler.decrementAll s.entities).size
        (Scheduler.decrementAll s.entities) [] [] (le_refl _)
    rw [Scheduler.runTrace_eq upd s hpf hne] at hev
    have hev' : ev ∈ new := by
      have hev2 : ev ∈ (Scheduler.runLoopF upd
          (Scheduler.decrementAll s.entities).size
          (Scheduler.decrementAll s.entities) [] []).2.2 := hev
      rw [e1] at hev2
      simpa using hev2
    obtain ⟨hold, hnew, hfin⟩ := e4 ev hev'
    refine ⟨hnew, ?_, ?_, ?_⟩
    · intro hbump
      rw [hfin, if_pos hbump]
    · intro hinc
      rw [hfin, if_neg (not_le.mpr hinc)]
    · have hrun : (Scheduler.run upd s).entities =
          (Scheduler.runLoopF upd (Scheduler.decrementAll s.entities).size
            (Scheduler.decrementAll s.entities) [] []).1.pushAll
          (Scheduler.runLoopF upd (Scheduler.decrementAll s.entities).size
            (Scheduler.decrementAll s.entities) [] []).2.1 := by
        unfold Scheduler.run
        rw [Scheduler.runTrace_eq upd s hpf hne]
      rw [← Multiset.mem_coe, hrun, Scheduler.pushAll_coe, e2]
      refine Multiset.mem_add.mpr (Or.inr ?_)
      rw [Multiset.mem_coe]
      simpa using List.mem_map_of_mem ActEvent.reinserted hev'

/-- C1 witness: one entity at `waitTime = 1` whose `update()` leaves
`waitTime` unchanged, so the bump fires. -/
theorem run_enforces_antideadlock_bump_witness :
    (⟨0, 0, 0, 1⟩ : ActEvent).newWaitTime =
      Scheduler.updStay (⟨0, 0, 0, 1⟩ : ActEvent).id
        (⟨0, 0, 0, 1⟩ : ActEvent).oldWaitTime ∧
    ((⟨0, 0, 0, 1⟩ : ActEvent).newWaitTime ≤
        (⟨0, 0, 0, 1⟩ : ActEvent).oldWaitTime →
      (⟨0, 0, 0, 1⟩ : ActEvent).finalWaitTime =
        (⟨0, 0, 0, 1⟩ : ActEvent).oldWaitTime + 1) ∧
    ((⟨0, 0, 0, 1⟩ : ActEvent).oldWaitTime <
        (⟨0, 0, 0, 1⟩ : ActEvent).newWaitTime →
      (⟨0, 0, 0, 1⟩ : ActEvent).finalWaitTime =
        (⟨0, 0, 0, 1⟩ : ActEvent).newWaitTime) ∧
    ActEvent.reinserted ⟨0, 0, 0, 1⟩ ∈
      (Scheduler.run Scheduler.updStay Scheduler.schedOne).entities.data :=
  run_enforces_antideadlock_bump Scheduler.updStay Scheduler.schedOne
    ⟨0, 0, 0, 1⟩ (by decide)

/-- C10: `run()` preserves the multiset of scheduled entity identities (and
hence the queue size): every popped entity is collected and re-inserted via
`pushAll` before `run()` returns.  The embedding's `upd` parameter models
`update()` calls that neither add nor remove entities, which is the claim's
precondition. -/
theorem run_preserves_entity_set (upd : Nat → Int → Int) (s : Scheduler) :
    ((Scheduler.run upd s).entities.data.map TimedEntity.id : Multiset Nat) =
      (s.entities.data.map TimedEntity.id : Multiset Nat) ∧
    (Scheduler.run upd s).entities.size = s.entities.size := by
  by_cases hp : s.paused = true ∨ s.entities.isEmpty = true
  · rw [Scheduler.run_noop_aux upd s hp]
    exact ⟨rfl, rfl⟩
  · have hpf := Scheduler.paused_false_of_not s hp
    have hne := Scheduler.data_ne_nil_of_not s hp
    obtain ⟨new, e1, e2, e3, e4, e5, e6⟩ :=
      Scheduler.runLoopF_spec upd (Scheduler.decrementAll s.entities).size
        (Scheduler.decrementAll s.entities) [] [] (le_refl _)
    have hpost : ((Scheduler.run upd s).entities.data : Multiset TimedEntity) =
        ↑(Scheduler.runLoopF upd (Scheduler.decrementAll s.entities).size
            (Scheduler.decrementAll s.entities) [] []).1.data
          + ↑(new.map ActEvent.reinserted) := by
      rw [Scheduler.run_entities_eq upd s hpf hne, Scheduler.pushAll_coe, e2]
      simp
    have hids : ((Scheduler.run upd s).entities.data.map TimedEntity.id :
        Multiset Nat) = (s.entities.data.map TimedEntity.id : Multiset Nat) := by
      have h1 := congrArg (Multiset.map TimedEntity.id) hpost
      have h2 := congrArg (Multiset.map TimedEntity.id) e3
      simp only [Multiset.map_add, Multiset.map_coe, List.map_map] at h1 h2
      have hsame : (new.map (TimedEntity.id ∘ ActEvent.reinserted)) =
          (new.map (TimedEntity.id ∘ ActEvent.popped)) := rfl
      rw [hsame] at h1
      rw [← Scheduler.decrementAll_map_id s.entities]
      exact h1.trans h2.symm
    refine ⟨hids, ?_⟩
    have hc := congrArg Multiset.card hids
    rw [Multiset.coe_card, Multiset.coe_card, List.length_map, List.length_map]
      at hc
    exact hc

/-- C8: `run()` terminates (it is a total function of this embedding, its
activation loop running on fuel equal to the heap size, which the loop
specification shows is never exhausted early), and the number of `update()`
invocations in one call is bounded by the number of entities whose
post-decrement `waitTime` is ≤ 0, and by the queue size.  The `upd`
parameter models `update()` calls that insert nothing, the claim's
precondition. -/
theorem run_update_count_bound (upd : Nat → Int → Int) (s : Scheduler) :
    (Scheduler.runTrace upd s).2.length ≤
      List.countP (fun e => decide (e.waitTime ≤ 0))
        (Scheduler.decrementAll s.entities).data ∧
    (Scheduler.runTrace upd s).2.length ≤ s.entities.size := by
  by_cases hp : s.paused = true ∨ s.entities.isEmpty = true
  · rw [Scheduler.runTrace_noop_aux upd s hp]
    exact ⟨Nat.zero_le _, Nat.zero_le _⟩
  · have hpf := Scheduler.paused_false_of_not s hp
    have hne := Scheduler.data_ne_nil_of_not s hp
    obtain ⟨new, e1, e2, e3, e4, e5, e6⟩ :=
      Scheduler.runLoopF_spec upd (Scheduler.decrementAll s.entities).size
        (Scheduler.decrementAll s.entities) [] [] (le_refl _)
    have htr : (Scheduler.runTrace upd s).2 = new := by
      rw [Scheduler.trace_eq_aux upd s hpf hne, e1]
      simp
    rw [htr]
    have hle : ((new.map ActEvent.popped : List TimedEntity) :
        Multiset TimedEntity) ≤ ↑(Scheduler.decrementAll s.entities).data := by
      rw [e3]
      exact Multiset.le_add_left _ _
    constructor
    · have hall : ∀ x ∈ ((new.map ActEvent.popped : List TimedEntity) :
          Multiset TimedEntity), x.waitTime ≤ 0 := by
        intro x hx
        rw [Multiset.mem_coe] at hx
        obtain ⟨ev, hev, rfl⟩ := List.mem_map.mp hx
        exact (e4 ev hev).1
      have hfil : ((new.map ActEvent.popped : List TimedEntity) :
          Multiset TimedEntity) ≤
          Multiset.filter (fun (e : TimedEntity) => e.waitTime ≤ 0)
            ((Scheduler.decrementAll s.entities).data : Multiset TimedEntity) := by
        calc ((new.map ActEvent.popped : List TimedEntity) :
            Multiset TimedEntity)
            = Multiset.filter (fun (e : TimedEntity) => e.waitTime ≤ 0)
              ((new.map ActEvent.popped : List TimedEntity) :
                Multiset TimedEntity) :=
              (Multiset.filter_eq_self.mpr hall).symm
          _ ≤ _ := Multiset.filter_le_filter _ hle
      have hcard := Multiset.card_le_card hfil
      have hfc : Multiset.filter (fun (e : TimedEntity) => e.waitTime ≤ 0)
          ((Scheduler.decrementAll s.entities).data : Multiset TimedEntity) =
          ↑((Scheduler.decrementAll s.entities).data.filter
            (fun e => decide (e.waitTime ≤ 0))) := rfl
      rw [hfc, Multiset.coe_card, Multiset.coe_card, List.length_map] at hcard
      rw [List.countP_eq_length_filter]
      exact hcard
    · have hcard := Multiset.card_le_card hle
      rw [Multiset.coe_card, Multiset.coe_card, List.length_map] at hcard
      have hlen := Scheduler.decrementAll_length s.entities
      unfold BinaryHeap.size
      omega

/-- C2 counterexample: in the spec's own scenario (A(3), B(1), C(5) added in
that order, B's `update()` setting `waitTime = 2`), B's post-run `waitTime`
is 2, not the claimed 1: B's update strictly increased `waitTime` from its
invocation-time value 0 (2 > 0), so the code's correction at lines 83–86
does not fire. -/
theorem scenario_ABC_counterexample :
    (⟨1, 2⟩ : TimedEntity) ∈
      (Scheduler.run Scheduler.updB Scheduler.schedABC).entities.data ∧
    (⟨1, 1⟩ : TimedEntity) ∉
      (Scheduler.run Scheduler.updB Scheduler.schedABC).entities.data := by
  decide

/-- C2 (amended): with A(id 0, 3), B(id 1, 1), C(id 2, 5) added in order and
B's `update()` setting `waitTime = 2`, one `run()` reads elapsed = 1,
decrements to A=2, B=0, C=4, activates only B (invocation-time waitTime 0,
update result 2), applies no correction since 2 > 0, and leaves the final
queue with A=2, C=4, B=2. -/
theorem scenario_ABC_run :
    Scheduler.schedABC.entities.peek = some ⟨1, 1⟩ ∧
    (Scheduler.decrementAll Scheduler.schedABC.entities).data =
      [⟨1, 0⟩, ⟨0, 2⟩, ⟨2, 4⟩] ∧
    (Scheduler.runTrace Scheduler.updB Scheduler.schedABC).2 =
      [⟨1, 0, 2, 2⟩] ∧
    (Scheduler.run Scheduler.updB Scheduler.schedABC).entities.data =
      [⟨0, 2⟩, ⟨2, 4⟩, ⟨1, 2⟩] := by
  decide

/-- C4 counterexample: with A(id 0, waitTime 1) and B(id 1, waitTime 5),
where A's `update()` sets `waitTime = 2`, entity A is activated in a
`run()` call and again in the immediately following `run()` call — an
activated entity is not ineligible for the next pass. -/
theorem reactivation_next_run_counterexample :
    (Scheduler.runTrace Scheduler.updFast Scheduler.schedAB).2.map
      ActEvent.id = [0] ∧
    (Scheduler.runTrace Scheduler.updFast
        (Scheduler.run Scheduler.updFast Scheduler.schedAB)).2.map
      ActEvent.id = [0] := by
  decide

/-- C4 (amended): every entity activated during a `run()` call is
ineligible for re-activation within that same call — assuming distinct
entity ids, each id appears at most once in the call's activation trace —
and its post-correction `waitTime` strictly exceeds its invocation-time
value. -/
theorem run_activates_each_entity_at_most_once (upd : Nat → Int → Int)
    (s : Scheduler) (hnd : (s.entities.data.map TimedEntity.id).Nodup) :
    ((Scheduler.runTrace upd s).2.map ActEvent.id).Nodup ∧
    ∀ ev ∈ (Scheduler.runTrace upd s).2,
      ev.oldWaitTime < ev.finalWaitTime := by
  by_cases hp : s.paused = true ∨ s.entities.isEmpty = true
  · rw [Scheduler.runTrace_noop_aux upd s hp]
    refine ⟨by simp, ?_⟩
    intro ev hev
    simp at hev
  · have hpf := Scheduler.paused_false_of_not s hp
    have hne := Scheduler.data_ne_nil_of_not s hp
    obtain ⟨new, e1, e2, e3, e4, e5, e6⟩ :=
      Scheduler.runLoopF_spec upd (Scheduler.decrementAll s.entities).size
        (Scheduler.decrementAll s.entities) [] [] (le_refl _)
    have htr : (Scheduler.runTrace upd s).2 = new := by
      rw [Scheduler.trace_eq_aux upd s hpf hne, e1]
      simp
    rw [htr]
    constructor
    · have hle : ((new.map ActEvent.popped : List TimedEntity) :
          Multiset TimedEntity) ≤
          ↑(Scheduler.decrementAll s.entities).data := by
        rw [e3]
        exact Multiset.le_add_left _ _
      have hm := Multiset.map_le_map (f := TimedEntity.id) hle
      rw [Multiset.map_coe, Multiset.map_coe, List.map_map] at hm
      have hnd1 : ((Scheduler.decrementAll s.entities).data.map
          TimedEntity.id).Nodup := by
        rw [Scheduler.decrementAll_map_id]
        exact hnd
      have hnodup := Multiset.nodup_of_le hm (Multiset.coe_nodup.mpr hnd1)
      rw [Multiset.coe_nodup] at hnodup
      exact hnodup
    · intro ev hev
      rcases e4 ev hev with ⟨h1', h2', h3'⟩
      rw [h3']
      by_cases hb : ev.newWaitTime ≤ ev.oldWaitTime
      · rw [if_pos hb]
        omega
      · rw [if_neg hb]
        omega

/-- C4 witness: the A/B/C scenario has distinct ids. -/
theorem run_activates_each_entity_at_most_once_witness :
    ((Scheduler.runTrace Scheduler.updB Scheduler.schedABC).2.map
      ActEvent.id).Nodup ∧
    ∀ ev ∈ (Scheduler.runTrace Scheduler.updB Scheduler.schedABC).2,
      ev.oldWaitTime < ev.finalWaitTime :=
  run_activates_each_entity_at_most_once Scheduler.updB Scheduler.schedABC
    (by decide)

/-- C7: in a single `run()` call on a non-paused scheduler with a valid
heap, every entity whose post-decrement `waitTime` is ≤ 0 has its
`update()` invoked in that same call (it appears in the call's activation
trace at exactly that invocation-time value); in particular two entities
tied at post-decrement `waitTime` 0 both activate in the same call. -/
theorem run_activates_all_eligible (upd : Nat → Int → Int) (s : Scheduler)
    (hheap : BinaryHeap.heapProp s.entities.data)
    (hpause : s.paused = false) :
    ∀ e ∈ (Scheduler.decrementAll s.entities).data, e.waitTime ≤ 0 →
      ∃ ev ∈ (Scheduler.runTrace upd s).2,
        ev.id = e.id ∧ ev.oldWaitTime = e.waitTime := by
  intro e he hele
  by_cases hnil : s.entities.data = []
  · rw [Scheduler.decrementAll_eq_of_none s.entities
      ((Scheduler.peek_none_iff _).mpr hnil), hnil] at he
    simp at he
  · obtain ⟨new, e1, e2, e3, e4, e5, e6⟩ :=
      Scheduler.runLoopF_spec upd (Scheduler.decrementAll s.entities).size
        (Scheduler.decrementAll s.entities) [] [] (le_refl _)
    have htr : (Scheduler.runTrace upd s).2 = new := by
      rw [Scheduler.trace_eq_aux upd s hpause hnil, e1]
      simp
    have hh1 : BinaryHeap.heapProp (Scheduler.decrementAll s.entities).data :=
      Scheduler.decrementAll_heapProp s.entities hheap
    have hcnt := congrArg (Multiset.count e) e3
    rw [Multiset.count_add] at hcnt
    have hr1 : Multiset.count e
        (((Scheduler.runLoopF upd (Scheduler.decrementAll s.entities).size
          (Scheduler.decrementAll s.entities) [] []).1.data : List TimedEntity) :
          Multiset TimedEntity) = 0 := by
      rw [Multiset.count_eq_zero]
      intro hmem
      rw [Multiset.mem_coe] at hmem
      obtain ⟨root, hpk1⟩ : ∃ root,
          (Scheduler.runLoopF upd (Scheduler.decrementAll s.entities).size
            (Scheduler.decrementAll s.entities) [] []).1.peek = some root := by
        cases hq : (Scheduler.runLoopF upd
            (Scheduler.decrementAll s.entities).size
            (Scheduler.decrementAll s.entities) [] []).1.peek with
        | none =>
          rw [(Scheduler.peek_none_iff _).mp hq] at hmem
          simp at hmem
        | some t => exact ⟨t, rfl⟩
      have hrootpos := e5 root hpk1
      have hle := BinaryHeap.root_le_mem _ (e6 hh1) root e hpk1 hmem
      omega
    have hpos : 0 < Multiset.count e
        ((new.map ActEvent.popped : List TimedEntity) :
          Multiset TimedEntity) := by
      have h1c : 0 < Multiset.count e
          (((Scheduler.decrementAll s.entities).data : List TimedEntity) :
            Multiset TimedEntity) :=
        Multiset.count_pos.mpr (Multiset.mem_coe.mpr he)
      omega
    have hmm : e ∈ new.map ActEvent.popped :=
      Multiset.mem_coe.mp (Multiset.count_pos.mp hpos)
    obtain ⟨ev, hev, heq⟩ := List.mem_map.mp hmm
    rw [htr]
    exact ⟨ev, hev, congrArg TimedEntity.id heq,
      congrArg TimedEntity.waitTime heq⟩

/-- C7 witness: two entities tied at `waitTime = 2` both activate in the
same `run()` call. -/
theorem run_activates_all_eligible_witness :
    ∃ ev ∈ (Scheduler.runTrace Scheduler.updFive Scheduler.schedTie).2,
      ev.id = (⟨1, 0⟩ : TimedEntity).id ∧
      ev.oldWaitTime = (⟨1, 0⟩ : TimedEntity).waitTime :=
  run_activates_all_eligible Scheduler.updFive Scheduler.schedTie
    (by decide) rfl ⟨1, 0⟩ (by decide) (by decide)

/-- C3: in a `run()` call on a non-paused scheduler with a valid heap whose
root (= minimum) `waitTime` is strictly positive, the value read as
`elapsed` is the true minimum of the queue, the bulk decrement subtracts it
from every entity in array order, and by the structure of `run()` (third
conjunct) the activation loop — the only place `update()` is invoked —
receives the already-decremented heap. -/
theorem run_decrements_by_minimum_before_updates (upd : Nat → Int → Int)
    (s : Scheduler) (e₀ : TimedEntity)
    (hheap : BinaryHeap.heapProp s.entities.data)
    (hpk : s.entities.peek = some e₀) (hpos : 0 < e₀.waitTime)
    (hpause : s.paused = false) :
    (s.entities.data.map TimedEntity.waitTime).min? = some e₀.waitTime ∧
    (Scheduler.decrementAll s.entities).data =
      s.entities.data.map (fun e => ⟨e.id, e.waitTime - e₀.waitTime⟩) ∧
    Scheduler.runTrace upd s =
      (Scheduler.mk
        ((Scheduler.runLoopF upd (Scheduler.decrementAll s.entities).size
            (Scheduler.decrementAll s.entities) [] []).1.pushAll
          (Scheduler.runLoopF upd (Scheduler.decrementAll s.entities).size
            (Scheduler.decrementAll s.entities) [] []).2.1)
        s.paused,
        (Scheduler.runLoopF upd (Scheduler.decrementAll s.entities).size
          (Scheduler.decrementAll s.entities) [] []).2.2) := by
  have hne : s.entities.data ≠ [] := by
    intro hnil
    rw [(Scheduler.peek_none_iff _).mpr hnil] at hpk
    cases hpk
  exact ⟨BinaryHeap.heapProp_peek_min s.entities hheap e₀ hpk,
    Scheduler.decrementAll_data_pos s.entities e₀ hpk hpos,
    Scheduler.runTrace_eq upd s hpause hne⟩

/-- C3 witness: the A/B/C scenario, minimum 1 at entity B. -/
theorem run_decrements_by_minimum_before_updates_witness :
    (Scheduler.schedABC.entities.data.map TimedEntity.waitTime).min? =
      some (⟨1, 1⟩ : TimedEntity).waitTime ∧
    (Scheduler.decrementAll Scheduler.schedABC.entities).data =
      Scheduler.schedABC.entities.data.map
        (fun e => ⟨e.id, e.waitTime - (⟨1, (1 : Int)⟩ :
          TimedEntity).waitTime⟩) ∧
    Scheduler.runTrace Scheduler.updB Scheduler.schedABC =
      (Scheduler.mk
        ((Scheduler.runLoopF Scheduler.updB
            (Scheduler.decrementAll Scheduler.schedABC.entities).size
            (Scheduler.decrementAll Scheduler.schedABC.entities) []
            []).1.pushAll
          (Scheduler.runLoopF Scheduler.updB
            (Scheduler.decrementAll Scheduler.schedABC.entities).size
            (Scheduler.decrementAll Scheduler.schedABC.entities) [] []).2.1)
        Scheduler.schedABC.paused,
        (Scheduler.runLoopF Scheduler.updB
          (Scheduler.decrementAll Scheduler.schedABC.entities).size
          (Scheduler.decrementAll Scheduler.schedABC.entities) [] []).2.2) :=
  run_decrements_by_minimum_before_updates Scheduler.updB Scheduler.schedABC
    ⟨1, 1⟩ (by decide) (by decide) (by decide) rfl

/-- C6 counterexample: with A(id 0, waitTime -1) and B(id 1, waitTime 3),
the pre-call minimum is -1, B is not activated, and B's `waitTime` after
the call is still 3 — not 3 - (-1) = 4 as the claim (with no condition on
the minimum's sign) requires, because the code only decrements when the
minimum is strictly positive. -/
theorem survivor_negative_min_counterexample :
    (Scheduler.schedNeg.entities.data.map TimedEntity.waitTime).min? =
      some (-1) ∧
    (⟨1, 3⟩ : TimedEntity) ∈ Scheduler.schedNeg.entities.data ∧
    (Scheduler.runTrace Scheduler.updFive Scheduler.schedNeg).2.map
      ActEvent.id = [0] ∧
    (⟨1, 3⟩ : TimedEntity) ∈
      (Scheduler.run Scheduler.updFive Scheduler.schedNeg).entities.data ∧
    (⟨1, 3 - (-1 : Int)⟩ : TimedEntity) ∉
      (Scheduler.run Scheduler.updFive Scheduler.schedNeg).entities.data := by
  decide

/-- C6 (amended): a non-activated entity's `waitTime` after `run()` equals
its prior value minus the pre-call minimum clamped below at zero (minus the
minimum when it is positive, unchanged otherwise). -/
theorem run_survivor_waitTime (upd : Nat → Int → Int) (s : Scheduler)
    (hheap : BinaryHeap.heapProp s.entities.data)
    (e : TimedEntity) (he : e ∈ s.entities.data) (m : Int)
    (hm : (s.entities.data.map TimedEntity.waitTime).min? = some m)
    (hna : e.id ∉ (Scheduler.runTrace upd s).2.map ActEvent.id)
    (hpause : s.paused = false) :
    (⟨e.id, e.waitTime - max m 0⟩ : TimedEntity) ∈
      (Scheduler.run upd s).entities.data := by
  have hne : s.entities.data ≠ [] := by
    intro hnil
    rw [hnil] at he
    simp at he
  obtain ⟨top, hpk⟩ : ∃ top, s.entities.peek = some top := by
    cases hq : s.entities.peek with
    | none => exact absurd ((Scheduler.peek_none_iff _).mp hq) hne
    | some t => exact ⟨t, rfl⟩
  have hmin := BinaryHeap.heapProp_peek_min s.entities hheap top hpk
  have htop : top.waitTime = m := by
    rw [hmin] at hm
    exact Option.some.inj hm
  obtain ⟨new, e1, e2, e3, e4, e5, e6⟩ :=
    Scheduler.runLoopF_spec upd (Scheduler.decrementAll s.entities).size
      (Scheduler.decrementAll s.entities) [] [] (le_refl _)
  have htr : (Scheduler.runTrace upd s).2 = new := by
    rw [Scheduler.trace_eq_aux upd s hpause hne, e1]
    simp
  have he1 : (⟨e.id, e.waitTime - max m 0⟩ : TimedEntity) ∈
      (Scheduler.decrementAll s.entities).data := by
    by_cases hposm : 0 < m
    · rw [Scheduler.decrementAll_data_pos s.entities top hpk
        (by rw [htop]; exact hposm), htop]
      have hmax : e.waitTime - max m 0 = e.waitTime - m := by
        rw [max_eq_left (le_of_lt hposm)]
      rw [show (⟨e.id, e.waitTime - max m 0⟩ : TimedEntity) =
        ⟨e.id, e.waitTime - m⟩ from by rw [hmax]]
      exact List.mem_map_of_mem
        (fun x => (⟨x.id, x.waitTime - m⟩ : TimedEntity)) he
    · rw [Scheduler.decrementAll_eq_of_nonpos s.entities top hpk
        (by rw [htop]; exact hposm)]
      have hmax : max m 0 = 0 := max_eq_right (not_lt.mp hposm)
      rw [show (⟨e.id, e.waitTime - max m 0⟩ : TimedEntity) = e from by
        rw [hmax]; cases e; simp]
      exact he
  have hcnt := congrArg
    (Multiset.count (⟨e.id, e.waitTime - max m 0⟩ : TimedEntity)) e3
  rw [Multiset.count_add] at hcnt
  have hcnt0 : Multiset.count (⟨e.id, e.waitTime - max m 0⟩ : TimedEntity)
      ((new.map ActEvent.popped : List TimedEntity) :
        Multiset TimedEntity) = 0 := by
    rw [Multiset.count_eq_zero]
    intro hmem
    rw [Multiset.mem_coe] at hmem
    obtain ⟨ev, hev, heq⟩ := List.mem_map.mp hmem
    apply hna
    rw [htr]
    exact List.mem_map.mpr ⟨ev, hev, congrArg TimedEntity.id heq⟩
  have hcnt1 : 0 < Multiset.count
      (⟨e.id, e.waitTime - max m 0⟩ : TimedEntity)
      (((Scheduler.decrementAll s.entities).data : List TimedEntity) :
        Multiset TimedEntity) :=
    Multiset.count_pos.mpr (Multiset.mem_coe.mpr he1)
  have hmem1 : (⟨e.id, e.waitTime - max m 0⟩ : TimedEntity) ∈
      (Scheduler.runLoopF upd (Scheduler.decrementAll s.entities).size
        (Scheduler.decrementAll s.entities) [] []).1.data := by
    rw [← Multiset.mem_coe, ← Multiset.count_pos]
    omega
  have hpost : ((Scheduler.run upd s).entities.data : Multiset TimedEntity) =
      ↑(Scheduler.runLoopF upd (Scheduler.decrementAll s.entities).size
          (Scheduler.decrementAll s.entities) [] []).1.data
        + ↑(new.map ActEvent.reinserted) := by
    rw [Scheduler.run_entities_eq upd s hpause hne, Scheduler.pushAll_coe, e2]
    simp
  rw [← Multiset.mem_coe, hpost]
  exact Multiset.mem_add.mpr (Or.inl (Multiset.mem_coe.mpr hmem1))

/-- C6 witness: in the A/B/C scenario the survivor A(id 0, 3) ends at
3 - max 1 0 = 2. -/
theorem run_survivor_waitTime_witness :
    (⟨0, (3 : Int) - max 1 0⟩ : TimedEntity) ∈
      (Scheduler.run Scheduler.updB Scheduler.schedABC).entities.data :=
  run_survivor_waitTime Scheduler.updB Scheduler.schedABC (by decide)
    ⟨0, 3⟩ (by decide) 1 (by decide) (by decide) rfl

end Yendor
